import Mathlib

/-!
Verification of the persistent term-frequency dictionary
(`crates/core/src/web_spell/term_freqs.rs` of the stract repository).

Shallow embedding conventions:

* A Rust `String`/`&str` term is modelled as the list of Unicode scalar
  values of its characters (`Term := List Nat`).  Rust's `term.len()` is
  the UTF-8 byte length, modelled by summing the UTF-8 encoded size of
  each scalar value.  Byte-lexicographic order on UTF-8 strings coincides
  with lexicographic order on the scalar-value sequences, which is what
  `termLt` implements.
* Rust's `char::is_alphabetic` consults the Unicode `Alphabetic` table,
  which is external data; it is threaded through as a parameter
  `tab : Nat → Bool` (the table restricted to the scalar values in use is
  supplied at each concrete instance).
* The two floating-point comparisons in `TermDict::insert`
  (`punct_count as f64 / len as f64 > 0.5` and
  `non_alpha_count as f64 / len as f64 > 0.25`) are modelled by the exact
  rational comparisons `2 * punct_count > len` and `4 * non_alpha > len`.
  They only run after the `len > 100` early return, so `count ≤ len ≤ 100`;
  for such values the f64 quotient is within a relative error of `2⁻⁵³` of
  the exact rational, while any exact quotient differing from the
  threshold differs by at least `1/400`, so the rounded comparison agrees
  with the exact one (`c/l = 1/2` and `c/l = 1/4` are exactly
  representable and compare as not-greater).  Hence the model is exact.
* An on-disk `fst::Map` segment is an immutable map with strictly
  ascending unique keys; it is modelled as an association list
  (`Seg := List (Term × Nat)`) together with the `SortedKeys` invariant
  that the code maintains for every segment it builds.
* Counters are `u64` in the code with overflow undefined per the spec
  (§3 "Overflow is undefined"); they are modelled as `Nat`.
-/

/-- A term: the Unicode scalar values of a Rust `String`'s characters. -/
abbrev Term := List Nat

/-- UTF-8 encoded byte length of one Unicode scalar value; `term.len()`
in Rust sums these. -/
def utf8Size (c : Nat) : Nat :=
  if c < 0x80 then 1 else if c < 0x800 then 2 else if c < 0x10000 then 3 else 4

/-- Rust's `term.len()`: the UTF-8 byte length of the term. -/
def termLen (t : Term) : Nat := (t.map utf8Size).sum

/-- Rust's `char::is_ascii_punctuation`. -/
def isAsciiPunct (c : Nat) : Bool :=
  (0x21 ≤ c && c ≤ 0x2f) || (0x3a ≤ c && c ≤ 0x40) ||
    (0x5b ≤ c && c ≤ 0x60) || (0x7b ≤ c && c ≤ 0x7e)

/-- Strict byte-lexicographic order on terms (Rust `String`'s `Ord`;
on valid UTF-8, byte order equals scalar-value order). -/
def termLt : Term → Term → Bool
  | _, [] => false
  | [], _ :: _ => true
  | a :: xs, b :: ys => a < b || (a == b && termLt xs ys)

theorem termLt_irrefl (t : Term) : termLt t t = false := by
  induction t with
  | nil => rfl
  | cons a xs ih => simp [termLt, ih]

theorem termLt_trans {a b c : Term} (hab : termLt a b = true)
    (hbc : termLt b c = true) : termLt a c = true := by
  induction a generalizing b c with
  | nil =>
    cases c with
    | nil =>
      cases b with
      | nil => exact hab
      | cons y ys => simp [termLt] at hbc
    | cons z zs => simp [termLt]
  | cons x xs ih =>
    cases b with
    | nil => simp [termLt] at hab
    | cons y ys =>
      cases c with
      | nil => simp [termLt] at hbc
      | cons z zs =>
        simp only [termLt, Bool.or_eq_true, Bool.and_eq_true, beq_iff_eq,
          decide_eq_true_eq] at hab hbc ⊢
        rcases hab with h1 | ⟨rfl, h1⟩
        · rcases hbc with h2 | ⟨rfl, h2⟩
          · exact Or.inl (Nat.lt_trans h1 h2)
          · exact Or.inl h1
        · rcases hbc with h2 | ⟨rfl, h2⟩
          · exact Or.inl h2
          · exact Or.inr ⟨rfl, ih h1 h2⟩

theorem termLt_connex {a b : Term} (hab : termLt a b = false)
    (hba : termLt b a = false) : a = b := by
  induction a generalizing b with
  | nil =>
    cases b with
    | nil => rfl
    | cons y ys => simp [termLt] at hab
  | cons x xs ih =>
    cases b with
    | nil => simp [termLt] at hba
    | cons y ys =>
      simp only [termLt, Bool.or_eq_false_iff, Bool.and_eq_false_iff,
        beq_eq_false_iff_ne, ne_eq, decide_eq_false_iff_not] at hab hba
      obtain ⟨hxy, hab'⟩ := hab
      obtain ⟨hyx, hba'⟩ := hba
      have hx : x = y := Nat.le_antisymm (Nat.le_of_not_lt hyx) (Nat.le_of_not_lt hxy)
      subst hx
      rcases hab' with h | h
      · exact absurd rfl h
      · rcases hba' with h' | h'
        · exact absurd rfl h'
        · exact congrArg (x :: ·) (ih h h')

theorem termLt_asymm {a b : Term} (h : termLt a b = true) : termLt b a = false := by
  by_contra hba
  have hba' : termLt b a = true := by
    cases hh : termLt b a with
    | false => exact absurd hh hba
    | true => rfl
  have := termLt_trans h hba'
  rw [termLt_irrefl] at this
  exact Bool.noConfusion this

/-- If `a` is not below `b` and they differ, then `b` is below `a`. -/
theorem termLt_of_not_lt {a b : Term} (h : termLt a b = false) (hne : a ≠ b) :
    termLt b a = true := by
  cases hh : termLt b a with
  | true => rfl
  | false => exact absurd (termLt_connex h hh) hne

/-- A stored segment: association list of `(term, count)` entries, the
contents of one `fst::Map` in stream order. -/
abbrev Seg := List (Term × Nat)

/-- `fst::Map::get`: point lookup, first matching key. -/
def segGet : Seg → Term → Option Nat
  | [], _ => none
  | (k, v) :: rest, t => if t = k then some v else segGet rest t

/-- The invariant of every segment the code builds: keys strictly
ascending in byte-lexicographic order (hence unique). -/
def SortedKeys (s : Seg) : Prop :=
  List.Pairwise (fun a b : Term × Nat => termLt a.1 b.1 = true) s

instance : DecidablePred SortedKeys := fun s =>
  inferInstanceAs (Decidable (List.Pairwise _ s))

theorem segGet_eq_none_of_not_mem {s : Seg} {t : Term}
    (h : ∀ e ∈ s, e.1 ≠ t) : segGet s t = none := by
  induction s with
  | nil => rfl
  | cons e rest ih =>
    obtain ⟨k, v⟩ := e
    have hk : k ≠ t := h (k, v) (List.mem_cons_self _ _)
    have hne : ¬(t = k) := fun ht => hk (Eq.symm ht)
    simp only [segGet, if_neg hne]
    exact ih fun e he => h e (List.mem_cons_of_mem _ he)

theorem segGet_of_mem {s : Seg} (hs : SortedKeys s) {e : Term × Nat}
    (he : e ∈ s) : segGet s e.1 = some e.2 := by
  induction s with
  | nil => cases he
  | cons x rest ih =>
    obtain ⟨k, v⟩ := x
    rcases List.mem_cons.mp he with h | h
    · subst h; simp [segGet]
    · have hlt : termLt k e.1 = true :=
        (List.pairwise_cons.mp hs).1 e h
      have hne : e.1 ≠ k := by
        intro hh
        rw [hh, termLt_irrefl] at hlt
        exact Bool.noConfusion hlt
      simp only [segGet, if_neg hne]
      exact ih (List.pairwise_cons.mp hs).2 h

theorem mem_of_segGet {s : Seg} {t : Term} {v : Nat}
    (h : segGet s t = some v) : (t, v) ∈ s := by
  induction s with
  | nil => simp [segGet] at h
  | cons x rest ih =>
    obtain ⟨k, w⟩ := x
    by_cases ht : t = k
    · subst ht
      have hg : segGet ((t, w) :: rest) t = some w := by simp [segGet]
      rw [hg] at h
      injection h with h
      subst h
      exact List.mem_cons_self _ _
    · simp only [segGet, if_neg ht] at h
      exact List.mem_cons_of_mem _ (ih h)

/-- The accumulator step of `TermDict::freq`'s loop over stored segments. -/
def combineFreq : Option Nat → Option Nat → Option Nat
  | acc, none => acc
  | none, some f => some f
  | some g, some f => some (g + f)

theorem combineFreq_none_left (o : Option Nat) : combineFreq none o = o := by
  cases o <;> rfl

theorem combineFreq_eq_none {a b : Option Nat} :
    combineFreq a b = none ↔ a = none ∧ b = none := by
  cases a <;> cases b <;> simp [combineFreq]

/-- Aggregate frequency of a term over a list of segments: the exact fold
performed by `TermDict::freq`. -/
def aggFreq (segs : List Seg) (t : Term) : Option Nat :=
  segs.foldl (fun acc s => combineFreq acc (segGet s t)) none

theorem aggFreq_from_acc (segs : List Seg) (t : Term) (acc : Option Nat) :
    segs.foldl (fun acc s => combineFreq acc (segGet s t)) acc
      = combineFreq acc (aggFreq segs t) := by
  induction segs generalizing acc with
  | nil => cases acc <;> rfl
  | cons s rest ih =>
    simp only [aggFreq, List.foldl_cons]
    rw [ih, ih (combineFreq none (segGet s t))]
    cases acc <;> cases segGet s t <;> cases aggFreq rest t <;>
      simp [combineFreq, Nat.add_assoc]

theorem aggFreq_nil (t : Term) : aggFreq [] t = none := rfl

theorem aggFreq_cons (s : Seg) (segs : List Seg) (t : Term) :
    aggFreq (s :: segs) t = combineFreq (segGet s t) (aggFreq segs t) := by
  simp only [aggFreq, List.foldl_cons]
  rw [aggFreq_from_acc, combineFreq_none_left]
  rfl

theorem aggFreq_append (a b : List Seg) (t : Term) :
    aggFreq (a ++ b) t = combineFreq (aggFreq a t) (aggFreq b t) := by
  simp only [aggFreq, List.foldl_append]
  rw [aggFreq_from_acc]
  rfl

theorem aggFreq_eq_none_iff (segs : List Seg) (t : Term) :
    aggFreq segs t = none ↔ ∀ s ∈ segs, segGet s t = none := by
  induction segs with
  | nil => simp [aggFreq_nil]
  | cons s rest ih =>
    rw [aggFreq_cons, combineFreq_eq_none, ih]
    simp

/-- `BTreeMap::entry(term).and_modify(|e| *e += 1).or_insert(1)`:
insert-or-increment keeping the association list sorted by key, as the
`BTreeMap` iteration order is ascending. -/
def bumpTerm : List (Term × Nat) → Term → List (Term × Nat)
  | [], t => [(t, 1)]
  | (k, v) :: rest, t =>
    if t = k then (k, v + 1) :: rest
    else if termLt t k then (t, 1) :: (k, v) :: rest
    else (k, v) :: bumpTerm rest t

theorem bumpTerm_lowerBound {m : List (Term × Nat)} {t u : Term}
    (hm : ∀ e ∈ m, termLt u e.1 = true) (ht : termLt u t = true) :
    ∀ e ∈ bumpTerm m t, termLt u e.1 = true := by
  induction m with
  | nil =>
    intro e he
    simp only [bumpTerm, List.mem_singleton] at he
    subst he; exact ht
  | cons x rest ih =>
    obtain ⟨k, v⟩ := x
    intro e he
    by_cases h1 : t = k
    · simp only [bumpTerm, if_pos h1] at he
      rcases List.mem_cons.mp he with h | h
      · subst h; exact hm (k, v) (List.mem_cons_self _ _)
      · exact hm e (List.mem_cons_of_mem _ h)
    · by_cases h2 : termLt t k = true
      · simp only [bumpTerm, if_neg h1, if_pos h2] at he
        rcases List.mem_cons.mp he with h | h
        · subst h; exact ht
        · exact hm e h
      · simp only [bumpTerm, if_neg h1, if_neg h2] at he
        rcases List.mem_cons.mp he with h | h
        · subst h; exact hm (k, v) (List.mem_cons_self _ _)
        · exact ih (fun e' he' => hm e' (List.mem_cons_of_mem _ he')) e h

theorem bumpTerm_sorted {m : List (Term × Nat)} (hm : SortedKeys m) (t : Term) :
    SortedKeys (bumpTerm m t) := by
  induction m with
  | nil => simp [bumpTerm, SortedKeys]
  | cons x rest ih =>
    obtain ⟨k, v⟩ := x
    obtain ⟨hhead, htail⟩ := List.pairwise_cons.mp hm
    by_cases h1 : t = k
    · simp only [bumpTerm, if_pos h1]
      exact List.pairwise_cons.mpr ⟨hhead, htail⟩
    · by_cases h2 : termLt t k = true
      · simp only [bumpTerm, if_neg h1, if_pos h2]
        refine List.pairwise_cons.mpr ⟨?_, List.pairwise_cons.mpr ⟨hhead, htail⟩⟩
        intro e he
        rcases List.mem_cons.mp he with h | h
        · subst h; exact h2
        · exact termLt_trans h2 (hhead e h)
      · have h2' : termLt t k = false := by
          cases hh : termLt t k with
          | true => exact absurd hh h2
          | false => rfl
        have hkt : termLt k t = true := termLt_of_not_lt h2' h1
        simp only [bumpTerm, if_neg h1, if_neg h2]
        refine List.pairwise_cons.mpr ⟨?_, ih htail⟩
        exact bumpTerm_lowerBound hhead hkt

theorem segGet_bumpTerm_self {m : List (Term × Nat)} (hm : SortedKeys m) (t : Term) :
    segGet (bumpTerm m t) t = some ((segGet m t).getD 0 + 1) := by
  induction m with
  | nil => simp [bumpTerm, segGet]
  | cons x rest ih =>
    obtain ⟨k, v⟩ := x
    obtain ⟨hhead, htail⟩ := List.pairwise_cons.mp hm
    by_cases h1 : t = k
    · subst h1
      simp [bumpTerm, segGet]
    · by_cases h2 : termLt t k = true
      · simp [bumpTerm, if_neg h1, if_pos h2, segGet, h1]
        have hnone : segGet rest t = none := by
          refine segGet_eq_none_of_not_mem ?_
          intro e he hh
          have hke := hhead e he
          rw [hh] at hke
          have := termLt_trans h2 hke
          rw [termLt_irrefl] at this
          exact Bool.noConfusion this
        rw [hnone]
        rfl
      · simp only [bumpTerm, if_neg h1, if_neg h2, segGet, if_neg h1]
        exact ih htail

theorem segGet_bumpTerm_other {m : List (Term × Nat)} {t u : Term} (hne : u ≠ t) :
    segGet (bumpTerm m t) u = segGet m u := by
  induction m with
  | nil => simp [bumpTerm, segGet, if_neg hne]
  | cons x rest ih =>
    obtain ⟨k, v⟩ := x
    by_cases h1 : t = k
    · subst h1
      simp [bumpTerm, segGet, if_neg hne]
    · by_cases h2 : termLt t k = true
      · simp only [bumpTerm, if_neg h1, if_pos h2, segGet, if_neg hne]
      · simp only [bumpTerm, if_neg h1, if_neg h2, segGet]
        by_cases h3 : u = k
        · simp [if_pos h3]
        · simp [if_neg h3, ih]

/-- The ingest filter of `TermDict::insert`, exactly in the code's
early-return order.  `tab` is the Unicode `Alphabetic` table consulted by
`char::is_alphabetic`; the fraction comparisons are the exact rational
forms of the code's f64 comparisons (see the header comment). -/
def ingestOk (tab : Nat → Bool) (t : Term) : Bool :=
  if termLen t ≤ 1 then false
  else if 100 < termLen t then false
  else if t.any (fun c => c == 0x20) then false
  else if termLen t < 2 * t.countP isAsciiPunct then false
  else if termLen t < 4 * t.countP (fun c => !tab c) then false
  else true

/-- Content-level state of a `TermDict`: the in-memory `DictBuilder`
accumulator and the contents of the stored segments in catalog order.
File names, UUIDs and `meta.json` are modelled separately where a claim
needs them. -/
structure TermDict where
  builder : List (Term × Nat)
  stored : List Seg

/-- A freshly opened `TermDict` on a new directory: empty accumulator,
no stored segments. -/
def TermDict.new : TermDict := ⟨[], []⟩

/-- `TermDict::insert`: filter, then insert-or-increment in the builder. -/
def TermDict.insert (tab : Nat → Bool) (d : TermDict) (t : Term) : TermDict :=
  if ingestOk tab t then { d with builder := bumpTerm d.builder t } else d

/-- `TermDict::commit`: freeze the builder into a new stored segment
(the `fst::MapBuilder` writes the `BTreeMap` entries in ascending key
order, so the segment contents are exactly the builder's entries) and
reset the builder.  The UUID allocation, `meta.json` write and the GC
pass do not affect the content state. -/
def TermDict.commit (d : TermDict) : TermDict :=
  { builder := [], stored := d.stored ++ [d.builder] }

/-- `TermDict::freq`: fold `combineFreq` over the stored segments. -/
def TermDict.freq (d : TermDict) (t : Term) : Option Nat :=
  aggFreq d.stored t

/-- `TermDict::merge` (the spec's merge-in): each of `other`'s segments
is renamed into `self`'s directory and appended to `self`'s stored list;
no key coalescing happens. -/
def TermDict.merge (d : TermDict) (other : TermDict) : TermDict :=
  { d with stored := d.stored ++ other.stored }

/-- A sequence of `insert` calls. -/
def insertAll (tab : Nat → Bool) (d : TermDict) (ts : List Term) : TermDict :=
  ts.foldl (TermDict.insert tab) d

theorem insertAll_stored (tab : Nat → Bool) (d : TermDict) (ts : List Term) :
    (insertAll tab d ts).stored = d.stored := by
  induction ts generalizing d with
  | nil => rfl
  | cons t rest ih =>
    simp only [insertAll, List.foldl_cons] at *
    rw [ih]
    unfold TermDict.insert
    split <;> rfl

theorem insertAll_builder (tab : Nat → Bool) (d : TermDict) (ts : List Term) :
    (insertAll tab d ts).builder
      = (ts.filter (ingestOk tab)).foldl bumpTerm d.builder := by
  induction ts generalizing d with
  | nil => rfl
  | cons t rest ih =>
    simp only [insertAll, List.foldl_cons] at *
    by_cases h : ingestOk tab t = true
    · rw [List.filter_cons_of_pos h, List.foldl_cons, ih]
      simp [TermDict.insert, h]
    · have h' : ingestOk tab t = false := by
        cases hh : ingestOk tab t with
        | true => exact absurd hh h
        | false => rfl
      rw [List.filter_cons_of_neg (by simp [h']), ih]
      simp [TermDict.insert, h']

theorem foldl_bumpTerm_sorted {m : List (Term × Nat)} (hm : SortedKeys m)
    (ts : List Term) : SortedKeys (ts.foldl bumpTerm m) := by
  induction ts generalizing m with
  | nil => exact hm
  | cons t rest ih => exact ih (bumpTerm_sorted hm t)

theorem segGet_foldl_bumpTerm {m : List (Term × Nat)} (hm : SortedKeys m)
    (ts : List Term) (t : Term) :
    segGet (ts.foldl bumpTerm m) t
      = if t ∈ ts ∨ (segGet m t).isSome
         then some ((segGet m t).getD 0 + ts.count t) else none := by
  induction ts generalizing m with
  | nil =>
    simp only [List.foldl_nil, List.count_nil, List.not_mem_nil, false_or]
    cases h : segGet m t <;> simp [h]
  | cons u rest ih =>
    simp only [List.foldl_cons]
    rw [ih (bumpTerm_sorted hm u)]
    by_cases hu : u = t
    · subst hu
      rw [segGet_bumpTerm_self hm]
      have hc : (u :: rest).count u = rest.count u + 1 := by
        simp [List.count_cons]
      simp only [List.mem_cons, true_or, or_true, if_pos, Option.isSome_some,
        Option.getD_some, hc]
      simp only [Option.some.injEq]
      omega
    · rw [segGet_bumpTerm_other (fun hh => hu hh.symm)]
      have htu : ¬(t = u) := fun hh => hu hh.symm
      have hc : (u :: rest).count t = rest.count t := by
        simp [List.count_cons, htu]
      have hmem : (t ∈ u :: rest ∨ (segGet m t).isSome)
          ↔ (t ∈ rest ∨ (segGet m t).isSome) := by
        simp only [List.mem_cons]
        constructor
        · rintro ((h | h) | h)
          · exact absurd h htu
          · exact Or.inl h
          · exact Or.inr h
        · rintro (h | h)
          · exact Or.inl (Or.inr h)
          · exact Or.inr h
      rw [hc]
      by_cases hcond : t ∈ rest ∨ (segGet m t).isSome
      · rw [if_pos hcond, if_pos (hmem.mpr hcond)]
      · rw [if_neg hcond, if_neg (fun hh => hcond (hmem.mp hh))]

/-- Modelled from the spec: the `MergePointer` struct is constructed in
`StoredDict::merge` with fields `term`, `value`, `stream`, `is_finished`,
but its `advance` method lives in `web_spell/mod.rs`, which is not among
the available sources.  Spec §4.3: each input has a forward cursor
"yielding `(term, count)` in order; a finished marker when exhausted".
The stream is the list of remaining `(term, count)` entries. -/
structure MergePointer where
  term : Term
  value : Nat
  stream : List (Term × Nat)
  is_finished : Bool

/-- Modelled from the spec (§4.3): advancing a cursor loads the next
`(term, count)` pair from its stream, or sets the finished marker when
the stream is exhausted. -/
def MergePointer.advance (p : MergePointer) : MergePointer :=
  match p.stream with
  | [] => { p with is_finished := true }
  | (t, v) :: rest => { term := t, value := v, stream := rest, is_finished := false }

/-- The entries a cursor still has to deliver (current entry included). -/
def pContents (p : MergePointer) : Seg :=
  if p.is_finished then [] else (p.term, p.value) :: p.stream

theorem pContents_advance (p : MergePointer) : pContents p.advance = p.stream := by
  obtain ⟨t, v, s, f⟩ := p
  cases s with
  | nil => rfl
  | cons e rest => obtain ⟨a, b⟩ := e; rfl

theorem pContents_of_finished {p : MergePointer} (h : p.is_finished = true) :
    pContents p = [] := by
  simp [pContents, h]

theorem pContents_of_unfinished {p : MergePointer} (h : p.is_finished = false) :
    pContents p = (p.term, p.value) :: p.stream := by
  simp [pContents, h]

/-- One step of the minimum-finding loop of `StoredDict::merge`:
skip finished pointers, replace the candidate when strictly smaller. -/
def minStep (acc : Option Term) (p : MergePointer) : Option Term :=
  if p.is_finished then acc
  else match acc with
    | none => some p.term
    | some m => if termLt p.term m then some p.term else some m

/-- The minimal current term among unfinished pointers (`min_pointer`
loop of `StoredDict::merge`); `none` when all pointers are finished,
which is exactly when the `while` loop exits. -/
def minTermOf (ps : List MergePointer) : Option Term :=
  ps.foldl minStep none

/-- Whether the summing loop of `StoredDict::merge` touches pointer `p`
for the current minimal term `t`. -/
def hitsTerm (t : Term) (p : MergePointer) : Bool :=
  !p.is_finished && decide (p.term = t)

/-- The summed frequency emitted for term `t`. -/
def sumAt (ps : List MergePointer) (t : Term) : Nat :=
  (ps.map fun p => if hitsTerm t p then p.value else 0).sum

/-- The pointer list after the summing loop advanced every pointer whose
current term is `t`. -/
def advanceAt (ps : List MergePointer) (t : Term) : List MergePointer :=
  ps.map fun p => if hitsTerm t p then p.advance else p

/-- Total number of entries still to deliver, the loop variant. -/
def pMeasure (ps : List MergePointer) : Nat :=
  (ps.map fun p => (pContents p).length).sum

theorem minTerm_stays_some {rest : List MergePointer} {t : Term}
    (h : rest.foldl minStep (some t) = none) : False := by
  induction rest generalizing t with
  | nil => exact Option.noConfusion h
  | cons q qs ih =>
    rw [List.foldl_cons] at h
    cases hf : q.is_finished with
    | true =>
      have hstep : minStep (some t) q = some t := by simp [minStep, hf]
      rw [hstep] at h
      exact ih h
    | false =>
      by_cases hlt : termLt q.term t = true
      · have hstep : minStep (some t) q = some q.term := by
          simp [minStep, hf, hlt]
        rw [hstep] at h
        exact ih h
      · have hlt2 : termLt q.term t = false := by
          cases hh : termLt q.term t with
          | true => exact absurd hh hlt
          | false => rfl
        have hstep : minStep (some t) q = some t := by
          simp [minStep, hf, hlt2]
        rw [hstep] at h
        exact ih h

theorem minTerm_none_finished {ps : List MergePointer} {acc : Option Term}
    (h : ps.foldl minStep acc = none) : ∀ p ∈ ps, p.is_finished = true := by
  induction ps generalizing acc with
  | nil => intro p hp; cases hp
  | cons q rest ih =>
    intro p hp
    rw [List.foldl_cons] at h
    rcases List.mem_cons.mp hp with hh | hh
    · subst hh
      cases hf : p.is_finished with
      | true => rfl
      | false =>
        exfalso
        cases acc with
        | none =>
          have hstep : minStep none p = some p.term := by simp [minStep, hf]
          rw [hstep] at h
          exact minTerm_stays_some h
        | some m =>
          by_cases hlt : termLt p.term m = true
          · have hstep : minStep (some m) p = some p.term := by
              simp [minStep, hf, hlt]
            rw [hstep] at h
            exact minTerm_stays_some h
          · have hlt2 : termLt p.term m = false := by
              cases hh2 : termLt p.term m with
              | true => exact absurd hh2 hlt
              | false => rfl
            have hstep : minStep (some m) p = some m := by
              simp [minStep, hf, hlt2]
            rw [hstep] at h
            exact minTerm_stays_some h
    · exact ih h p hh

theorem minTerm_mem {ps : List MergePointer} {acc : Option Term} {t : Term}
    (h : ps.foldl minStep acc = some t) :
    acc = some t ∨ ∃ p ∈ ps, p.is_finished = false ∧ p.term = t := by
  induction ps generalizing acc with
  | nil => exact Or.inl h
  | cons q rest ih =>
    rw [List.foldl_cons] at h
    rcases ih h with hh | ⟨p, hp, hfin, hterm⟩
    · unfold minStep at hh
      cases hf : q.is_finished with
      | true => rw [hf] at hh; simp at hh; exact Or.inl hh
      | false =>
        rw [hf] at hh
        cases acc with
        | none =>
          simp at hh
          exact Or.inr ⟨q, List.mem_cons_self _ _, hf, hh⟩
        | some m =>
          simp at hh
          by_cases hlt : termLt q.term m = true
          · rw [if_pos hlt] at hh
            injection hh with hh
            exact Or.inr ⟨q, List.mem_cons_self _ _, hf, hh⟩
          · rw [if_neg hlt] at hh
            injection hh with hh
            exact Or.inl (congrArg some hh)
    · exact Or.inr ⟨p, List.mem_cons_of_mem _ hp, hfin, hterm⟩

theorem minTerm_lb {ps : List MergePointer} {acc : Option Term} {t : Term}
    (h : ps.foldl minStep acc = some t) :
    (∀ p ∈ ps, p.is_finished = false → termLt p.term t = false) ∧
      (∀ m, acc = some m → termLt m t = false) := by
  induction ps generalizing acc with
  | nil =>
    refine ⟨fun p hp => absurd hp (List.not_mem_nil p), ?_⟩
    intro m hm
    rw [hm] at h
    injection h with h
    subst h
    exact termLt_irrefl m
  | cons q rest ih =>
    rw [List.foldl_cons] at h
    obtain ⟨hrest, hacc⟩ := ih h
    have hq : q.is_finished = false → termLt q.term t = false := by
      intro hf
      unfold minStep at hacc
      cases acc with
      | none =>
        exact hacc q.term (by simp [minStep, hf])
      | some m =>
        by_cases hlt : termLt q.term m = true
        · exact hacc q.term (by rw [hf]; simp [if_pos hlt])
        · have hmt : termLt m t = false :=
            hacc m (by rw [hf]; simp [if_neg hlt])
          cases hqt : termLt q.term t with
          | false => rfl
          | true =>
            exfalso
            have hlt' : termLt q.term m = false := by
              cases hh : termLt q.term m with
              | true => exact absurd hh hlt
              | false => rfl
            by_cases hqm : q.term = m
            · rw [hqm] at hqt
              rw [hqt] at hmt
              exact Bool.noConfusion hmt
            · have := termLt_trans (termLt_of_not_lt hlt' hqm) hqt
              rw [this] at hmt
              exact Bool.noConfusion hmt
    refine ⟨?_, ?_⟩
    · intro p hp hf
      rcases List.mem_cons.mp hp with hh | hh
      · subst hh; exact hq hf
      · exact hrest p hh hf
    · intro m hm
      subst hm
      unfold minStep at hacc
      cases hf : q.is_finished with
      | true => exact hacc m (by simp [minStep, hf])
      | false =>
        by_cases hlt : termLt q.term m = true
        · have hqt : termLt q.term t = false :=
            hacc q.term (by rw [hf]; simp [if_pos hlt])
          cases hmt : termLt m t with
          | false => rfl
          | true =>
            exfalso
            have := termLt_trans hlt hmt
            rw [this] at hqt
            exact Bool.noConfusion hqt
        · exact hacc m (by rw [hf]; simp [if_neg hlt])

theorem minTerm_exists_hit {ps : List MergePointer} {t : Term}
    (h : minTermOf ps = some t) : ∃ p ∈ ps, hitsTerm t p = true := by
  rcases minTerm_mem h with hh | ⟨p, hp, hfin, hterm⟩
  · exact Option.noConfusion hh
  · exact ⟨p, hp, by simp [hitsTerm, hfin, hterm]⟩

theorem pContents_length_advance_le (t : Term) (p : MergePointer) :
    (pContents (if hitsTerm t p then p.advance else p)).length
      ≤ (pContents p).length := by
  by_cases h : hitsTerm t p = true
  · rw [if_pos h, pContents_advance]
    have hfin : p.is_finished = false := by
      have := h
      unfold hitsTerm at this
      cases hf : p.is_finished with
      | false => rfl
      | true => rw [hf] at this; simp at this
    rw [pContents_of_unfinished hfin]
    simp
  · rw [if_neg h]

theorem pContents_length_advance_lt {t : Term} {p : MergePointer}
    (h : hitsTerm t p = true) :
    (pContents (if hitsTerm t p then p.advance else p)).length
      < (pContents p).length := by
  rw [if_pos h, pContents_advance]
  have hfin : p.is_finished = false := by
    unfold hitsTerm at h
    cases hf : p.is_finished with
    | false => rfl
    | true => rw [hf] at h; simp at h
  rw [pContents_of_unfinished hfin]
  simp

theorem pMeasure_advanceAt_le (ps : List MergePointer) (t : Term) :
    pMeasure (advanceAt ps t) ≤ pMeasure ps := by
  induction ps with
  | nil => exact Nat.le_refl _
  | cons p rest ih =>
    simp only [advanceAt, pMeasure, List.map_cons, List.map_map, List.sum_cons] at *
    exact Nat.add_le_add (pContents_length_advance_le t p) ih

theorem pMeasure_advanceAt_lt {ps : List MergePointer} {t : Term}
    (h : ∃ p ∈ ps, hitsTerm t p = true) :
    pMeasure (advanceAt ps t) < pMeasure ps := by
  induction ps with
  | nil => obtain ⟨p, hp, _⟩ := h; cases hp
  | cons p rest ih =>
    obtain ⟨q, hq, hhit⟩ := h
    simp only [advanceAt, pMeasure, List.map_cons, List.map_map, List.sum_cons]
    rcases List.mem_cons.mp hq with hh | hh
    · subst hh
      have h1 := pContents_length_advance_lt hhit
      have h2 := pMeasure_advanceAt_le rest t
      simp only [advanceAt, pMeasure, List.map_map] at h2
      omega
    · have h1 := pContents_length_advance_le t p
      have h2 := ih ⟨q, hh, hhit⟩
      simp only [advanceAt, pMeasure, List.map_map] at h2
      omega

/-- The `while` loop of `StoredDict::merge`: repeatedly emit the minimal
current term with the summed values of all pointers at it, advancing
those pointers.  The loop guard `pointers.iter().any(|p| !p.is_finished)`
holds exactly when `minTermOf` is `some`. -/
def mergeLoop (ps : List MergePointer) : Seg :=
  match hmin : minTermOf ps with
  | none => []
  | some t => (t, sumAt ps t) :: mergeLoop (advanceAt ps t)
termination_by pMeasure ps
decreasing_by
  exact pMeasure_advanceAt_lt (minTerm_exists_hit hmin)

theorem mergeLoop_eq_nil {ps : List MergePointer} (h : minTermOf ps = none) :
    mergeLoop ps = [] := by
  rw [mergeLoop]
  split
  · rfl
  · rename_i t ht
    rw [h] at ht
    exact Option.noConfusion ht

theorem mergeLoop_eq_cons {ps : List MergePointer} {t : Term}
    (h : minTermOf ps = some t) :
    mergeLoop ps = (t, sumAt ps t) :: mergeLoop (advanceAt ps t) := by
  rw [mergeLoop]
  split
  · rename_i ht
    rw [h] at ht
    exact Option.noConfusion ht
  · rename_i u hu
    rw [h] at hu
    injection hu with hu
    subst hu
    rfl

theorem hitsTerm_unfinished {t : Term} {p : MergePointer}
    (h : hitsTerm t p = true) : p.is_finished = false ∧ p.term = t := by
  unfold hitsTerm at h
  cases hf : p.is_finished with
  | true => rw [hf] at h; simp at h
  | false =>
    rw [hf] at h
    simp at h
    exact ⟨rfl, h⟩

theorem segGet_pContents_at_min {ps : List MergePointer} {t : Term}
    (hmin : minTermOf ps = some t) {p : MergePointer} (hp : p ∈ ps)
    (hs : SortedKeys (pContents p)) :
    segGet (pContents p) t = if hitsTerm t p then some p.value else none := by
  cases hf : p.is_finished with
  | true =>
    rw [pContents_of_finished hf]
    simp [segGet, hitsTerm, hf]
  | false =>
    have hnlt : termLt p.term t = false := (minTerm_lb hmin).1 p hp hf
    rw [pContents_of_unfinished hf]
    by_cases ht : p.term = t
    · have hhit : hitsTerm t p = true := by simp [hitsTerm, hf, ht]
      rw [if_pos hhit]
      simp [segGet, ht]
    · have hhit : hitsTerm t p = false := by simp [hitsTerm, hf, ht]
      rw [if_neg (by simp [hhit])]
      have htp : termLt t p.term = true := termLt_of_not_lt hnlt ht
      refine segGet_eq_none_of_not_mem ?_
      intro e he hh
      rcases List.mem_cons.mp he with h1 | h1
      · subst h1
        exact ht hh
      · rw [pContents_of_unfinished hf] at hs
        have hpe : termLt p.term e.1 = true :=
          (List.pairwise_cons.mp hs).1 e h1
        have := termLt_trans htp hpe
        rw [hh, termLt_irrefl] at this
        exact Bool.noConfusion this

theorem sumAt_nil (t : Term) : sumAt [] t = 0 := rfl

theorem sumAt_cons (p : MergePointer) (ps : List MergePointer) (t : Term) :
    sumAt (p :: ps) t = (if hitsTerm t p then p.value else 0) + sumAt ps t := by
  simp [sumAt]

theorem aggFreq_pContents_hits {t : Term} :
    ∀ (ps : List MergePointer),
    (∀ p ∈ ps, segGet (pContents p) t = if hitsTerm t p then some p.value else none) →
    aggFreq (ps.map pContents) t
      = if ps.any (hitsTerm t) then some (sumAt ps t) else none := by
  intro ps
  induction ps with
  | nil => intro _; rfl
  | cons p rest ih =>
    intro hpt
    rw [List.map_cons, aggFreq_cons, hpt p (List.mem_cons_self _ _),
      ih (fun q hq => hpt q (List.mem_cons_of_mem _ hq)), sumAt_cons]
    by_cases hp : hitsTerm t p = true
    · rw [if_pos hp]
      by_cases hr : rest.any (hitsTerm t) = true
      · rw [if_pos hr]
        simp [combineFreq, List.any_cons, hp]
      · rw [if_neg hr]
        have hz : sumAt rest t = 0 := by
          unfold sumAt
          have : ∀ x ∈ rest.map (fun p => if hitsTerm t p then p.value else 0),
              x = 0 := by
            intro x hx
            obtain ⟨q, hq, hqx⟩ := List.mem_map.mp hx
            have hqf : hitsTerm t q = false := by
              cases hh : hitsTerm t q with
              | false => rfl
              | true => exact absurd (List.any_of_mem hq hh) (by simp [hr])
            rw [← hqx, if_neg (by simp [hqf])]
          exact List.sum_eq_zero this
        rw [hz]
        simp [combineFreq, List.any_cons, hp]
    · have hp' : hitsTerm t p = false := by
        cases hh : hitsTerm t p with
        | true => exact absurd hh hp
        | false => rfl
      rw [if_neg hp]
      simp only [List.any_cons, hp', Bool.false_or]
      rw [combineFreq_none_left]
      simp

theorem advanceAt_sorted {ps : List MergePointer} (t : Term)
    (hs : ∀ p ∈ ps, SortedKeys (pContents p)) :
    ∀ q ∈ advanceAt ps t, SortedKeys (pContents q) := by
  intro q hq
  obtain ⟨p, hp, rfl⟩ := List.mem_map.mp hq
  by_cases h : hitsTerm t p = true
  · rw [if_pos h, pContents_advance]
    obtain ⟨hf, _⟩ := hitsTerm_unfinished h
    have hsp := hs p hp
    rw [pContents_of_unfinished hf] at hsp
    exact (List.pairwise_cons.mp hsp).2
  · rw [if_neg h]
    exact hs p hp

theorem advanceAt_keys_gt {ps : List MergePointer} {t : Term}
    (hmin : minTermOf ps = some t)
    (hs : ∀ p ∈ ps, SortedKeys (pContents p)) :
    ∀ q ∈ advanceAt ps t, ∀ e ∈ pContents q, termLt t e.1 = true := by
  intro q hq e he
  obtain ⟨p, hp, rfl⟩ := List.mem_map.mp hq
  by_cases h : hitsTerm t p = true
  · rw [if_pos h, pContents_advance] at he
    obtain ⟨hf, hterm⟩ := hitsTerm_unfinished h
    have hsp := hs p hp
    rw [pContents_of_unfinished hf] at hsp
    have := (List.pairwise_cons.mp hsp).1 e he
    rwa [hterm] at this
  · rw [if_neg h] at he
    cases hf : p.is_finished with
    | true =>
      rw [pContents_of_finished hf] at he
      cases he
    | false =>
      have hterm : p.term ≠ t := by
        intro hh
        rw [hitsTerm, hf, hh] at h
        simp at h
      have hnlt : termLt p.term t = false := (minTerm_lb hmin).1 p hp hf
      have htp : termLt t p.term = true := termLt_of_not_lt hnlt hterm
      rw [pContents_of_unfinished hf] at he
      rcases List.mem_cons.mp he with h1 | h1
      · subst h1
        exact htp
      · have hsp := hs p hp
        rw [pContents_of_unfinished hf] at hsp
        exact termLt_trans htp ((List.pairwise_cons.mp hsp).1 e h1)

theorem aggFreq_map_congr {α : Type} (ps : List α) (f g : α → Seg) (u : Term)
    (h : ∀ p ∈ ps, segGet (f p) u = segGet (g p) u) :
    aggFreq (ps.map f) u = aggFreq (ps.map g) u := by
  induction ps with
  | nil => rfl
  | cons p rest ih =>
    rw [List.map_cons, List.map_cons, aggFreq_cons, aggFreq_cons,
      h p (List.mem_cons_self _ _), ih (fun q hq => h q (List.mem_cons_of_mem _ hq))]

theorem aggFreq_advanceAt_other {ps : List MergePointer} {t u : Term}
    (hne : u ≠ t) :
    aggFreq ((advanceAt ps t).map pContents) u = aggFreq (ps.map pContents) u := by
  unfold advanceAt
  rw [List.map_map]
  apply aggFreq_map_congr
  intro p _
  show segGet (pContents (if hitsTerm t p then p.advance else p)) u
      = segGet (pContents p) u
  by_cases h : hitsTerm t p = true
  · rw [if_pos h, pContents_advance]
    obtain ⟨hf, hterm⟩ := hitsTerm_unfinished h
    rw [pContents_of_unfinished hf, hterm]
    simp [segGet, if_neg hne]
  · rw [if_neg h]

theorem aggFreq_advanceAt_self {ps : List MergePointer} {t : Term}
    (hmin : minTermOf ps = some t)
    (hs : ∀ p ∈ ps, SortedKeys (pContents p)) :
    aggFreq ((advanceAt ps t).map pContents) t = none := by
  rw [aggFreq_eq_none_iff]
  intro s hsm
  obtain ⟨q, hq, rfl⟩ := List.mem_map.mp hsm
  refine segGet_eq_none_of_not_mem ?_
  intro e he hh
  have := advanceAt_keys_gt hmin hs q hq e he
  rw [hh, termLt_irrefl] at this
  exact Bool.noConfusion this

theorem mem_le_pMeasure {p : MergePointer} {ps : List MergePointer}
    (hp : p ∈ ps) : (pContents p).length ≤ pMeasure ps := by
  induction ps with
  | nil => cases hp
  | cons q rest ih =>
    simp only [pMeasure, List.map_cons, List.sum_cons]
    rcases List.mem_cons.mp hp with hh | hh
    · subst hh
      omega
    · have := ih hh
      simp only [pMeasure] at this
      omega

theorem mergeLoop_spec :
    ∀ (n : Nat) (ps : List MergePointer), pMeasure ps ≤ n →
    (∀ p ∈ ps, SortedKeys (pContents p)) →
    SortedKeys (mergeLoop ps) ∧
      ∀ t, segGet (mergeLoop ps) t = aggFreq (ps.map pContents) t := by
  intro n
  induction n with
  | zero =>
    intro ps hle hs
    cases hmin : minTermOf ps with
    | some t =>
      exfalso
      obtain ⟨p, hp, hh⟩ := minTerm_exists_hit hmin
      obtain ⟨hf, _⟩ := hitsTerm_unfinished hh
      have h1 := mem_le_pMeasure hp
      rw [pContents_of_unfinished hf] at h1
      simp at h1
      omega
    | none =>
      rw [mergeLoop_eq_nil hmin]
      refine ⟨List.Pairwise.nil, fun t => ?_⟩
      have : aggFreq (ps.map pContents) t = none := by
        rw [aggFreq_eq_none_iff]
        intro s hsm
        obtain ⟨q, hq, rfl⟩ := List.mem_map.mp hsm
        rw [pContents_of_finished (minTerm_none_finished hmin q hq)]
        rfl
      rw [this]
      rfl
  | succ n ih =>
    intro ps hle hs
    cases hmin : minTermOf ps with
    | none =>
      rw [mergeLoop_eq_nil hmin]
      refine ⟨List.Pairwise.nil, fun t => ?_⟩
      have : aggFreq (ps.map pContents) t = none := by
        rw [aggFreq_eq_none_iff]
        intro s hsm
        obtain ⟨q, hq, rfl⟩ := List.mem_map.mp hsm
        rw [pContents_of_finished (minTerm_none_finished hmin q hq)]
        rfl
      rw [this]
      rfl
    | some t =>
      have hhit := minTerm_exists_hit hmin
      have hltm := pMeasure_advanceAt_lt hhit
      have hle' : pMeasure (advanceAt ps t) ≤ n := by omega
      have hs' := advanceAt_sorted t hs
      obtain ⟨ihs, ihget⟩ := ih (advanceAt ps t) hle' hs'
      rw [mergeLoop_eq_cons hmin]
      refine ⟨?_, ?_⟩
      · refine List.pairwise_cons.mpr ⟨?_, ihs⟩
        intro x hx
        have hgx : segGet (mergeLoop (advanceAt ps t)) x.1 = some x.2 :=
          segGet_of_mem ihs hx
        rw [ihget x.1] at hgx
        have hnall : ¬ ∀ s ∈ (advanceAt ps t).map pContents, segGet s x.1 = none := by
          intro hall
          rw [(aggFreq_eq_none_iff _ _).mpr hall] at hgx
          exact Option.noConfusion hgx
        push_neg at hnall
        obtain ⟨s, hsm, hsg⟩ := hnall
        cases hv : segGet s x.1 with
        | none => exact absurd hv hsg
        | some v =>
          have hmem := mem_of_segGet hv
          obtain ⟨q, hq, rfl⟩ := List.mem_map.mp hsm
          exact advanceAt_keys_gt hmin hs q hq (x.1, v) hmem
      · intro u
        by_cases hu : u = t
        · subst hu
          have hK1 : ∀ p ∈ ps,
              segGet (pContents p) u = if hitsTerm u p then some p.value else none :=
            fun p hp => segGet_pContents_at_min hmin hp (hs p hp)
          have hany : ps.any (hitsTerm u) = true := by
            obtain ⟨p, hp, hh⟩ := hhit
            exact List.any_of_mem hp hh
          rw [aggFreq_pContents_hits ps hK1, if_pos hany]
          simp [segGet]
        · have hstep : segGet ((t, sumAt ps t) :: mergeLoop (advanceAt ps t)) u
              = segGet (mergeLoop (advanceAt ps t)) u := by
            simp [segGet, hu]
          rw [hstep, ihget u, aggFreq_advanceAt_other hu]

/-- The initial cursor of `StoredDict::merge`: `term: String::new(),
value: 0, stream: d.map.stream(), is_finished: false`, advanced once
before the loop. -/
def initPointer (s : Seg) : MergePointer :=
  MergePointer.advance { term := [], value := 0, stream := s, is_finished := false }

theorem pContents_initPointer (s : Seg) : pContents (initPointer s) = s := by
  unfold initPointer
  rw [pContents_advance]

/-- `StoredDict::merge`: k-way merge of the given segments into one. -/
def mergeSegments (segs : List Seg) : Seg :=
  mergeLoop (segs.map initPointer)

theorem mergeSegments_spec (segs : List Seg) (hs : ∀ s ∈ segs, SortedKeys s) :
    SortedKeys (mergeSegments segs) ∧
      ∀ t, segGet (mergeSegments segs) t = aggFreq segs t := by
  have hcontents : (segs.map initPointer).map pContents = segs := by
    rw [List.map_map]
    have hcomp : pContents ∘ initPointer = id := funext pContents_initPointer
    rw [hcomp, List.map_id]
  have hs' : ∀ p ∈ segs.map initPointer, SortedKeys (pContents p) := by
    intro p hp
    obtain ⟨s, hsm, rfl⟩ := List.mem_map.mp hp
    rw [pContents_initPointer]
    exact hs s hsm
  obtain ⟨h1, h2⟩ :=
    mergeLoop_spec (pMeasure (segs.map initPointer)) _ (Nat.le_refl _) hs'
  refine ⟨h1, fun t => ?_⟩
  rw [mergeSegments, h2 t, hcontents]

/-- `TermDict::merge_dicts`: no-op on at most one stored segment,
otherwise replace all stored segments by their k-way merge (the UUID
and `meta.json` bookkeeping does not affect the content state). -/
def TermDict.merge_dicts (d : TermDict) : TermDict :=
  if d.stored.length ≤ 1 then d
  else { d with stored := [mergeSegments d.stored] }

/-- One step of the heap pass in `TermDict::prune`.  Rust's
`BinaryHeap<u64>` is a *max*-heap; only its multiset of elements matters
for this pass, so it is modelled as a list: `push` conses, `peek_mut`
yields a greatest element, and writing through the `PeekMut` replaces
that occurrence (the heap restores its invariant on drop).  The code's
`freq > *min` comparison is `m < freq` here. -/
def heapStep (top_n_terms : Nat) (heap : List Nat) (freq : Nat) : List Nat :=
  if heap.length < top_n_terms then freq :: heap
  else match heap.max? with
    | none => heap
    | some m => if m < freq then freq :: heap.erase m else heap

/-- The per-segment counts streamed by `TermDict::prune`, in segment
order and, within a segment, in key order. -/
def allCounts (segs : List Seg) : List Nat :=
  (segs.map (fun s => s.map Prod.snd)).flatten

/-- `TermDict::prune` on the content state.  Returns `none` when the
code panics: `into_sorted_vec().pop()` yields the *last* element of the
ascending vector — the maximum of the heap — and `pop()` returns `None`
on an empty heap, so the `unwrap` panics exactly then.  On the success
path every stored segment is rewritten keeping the entries with
`freq >= lowest`. -/
def pruneModel (segs : List Seg) (top_n_terms : Nat) : Option (List Seg) :=
  let heap := (allCounts segs).foldl (heapStep top_n_terms) []
  if heap.length < top_n_terms then some segs
  else match heap.max? with
    | none => none
    | some lowest => some (segs.map (fun s => s.filter (fun e => lowest ≤ e.2)))

/-- `TermDict::prune` on a dictionary state; `none` models a panic. -/
def TermDict.prune (d : TermDict) (top_n_terms : Nat) : Option TermDict :=
  (pruneModel d.stored top_n_terms).map (fun ss => { d with stored := ss })

theorem heapStep_zero (heap : List Nat) (freq : Nat) (h : heap = []) :
    heapStep 0 heap freq = [] := by
  subst h
  rfl

theorem foldl_heapStep_zero (l : List Nat) :
    l.foldl (heapStep 0) [] = [] := by
  induction l with
  | nil => rfl
  | cons v rest ih => simpa [List.foldl_cons, heapStep_zero] using ih

/-- Keys accepted by the automaton in one segment
(`stored.map.search(automaton).into_stream().into_str_keys()`). -/
def segSearch (automaton : Term → Bool) (s : Seg) : List Term :=
  (s.filter (fun e => automaton e.1)).map Prod.fst

/-- `TermDict::search` on the content state.  `lev` is the result of
`fst::automaton::Levenshtein::new(term, max_edit_distance)` — `some`
of the acceptance predicate, or `none` when the construction fails
(e.g. the automaton exceeds the library's state limit); the
construction is deterministic, so hoisting it out of the per-segment
loop is sound.  Each stored segment is paired with whether its
`into_str_keys` stream succeeds.  Both `if let Ok` guards silently
skip a segment on failure; the function always returns a plain list,
mirroring the `Vec<String>` return type. -/
def searchSegs (segs : List (Seg × Bool)) (lev : Option (Term → Bool)) :
    List Term :=
  segs.foldl
    (fun res sb =>
      match lev with
      | none => res
      | some automaton =>
        if sb.2 then res ++ segSearch automaton sb.1 else res)
    []

theorem searchSegs_none (segs : List (Seg × Bool)) :
    searchSegs segs none = [] := by
  unfold searchSegs
  induction segs with
  | nil => rfl
  | cons sb rest ih => simpa using ih

theorem foldl_append_flatten {α β : Type} (l : List α) (g : α → List β)
    (r0 : List β) :
    l.foldl (fun r x => r ++ g x) r0 = r0 ++ (l.map g).flatten := by
  induction l generalizing r0 with
  | nil => simp
  | cons x rest ih =>
    rw [List.foldl_cons, ih, List.map_cons]
    simp [List.append_assoc]

theorem searchSegs_ok (segs : List (Seg × Bool)) (automaton : Term → Bool)
    (h : ∀ sb ∈ segs, sb.2 = true) :
    searchSegs segs (some automaton)
      = (segs.map (fun sb => segSearch automaton sb.1)).flatten := by
  have key : ∀ (l : List (Seg × Bool)), (∀ sb ∈ l, sb.2 = true) →
      ∀ r0 : List Term,
      l.foldl (fun res sb => if sb.2 then res ++ segSearch automaton sb.1 else res) r0
        = r0 ++ (l.map (fun sb => segSearch automaton sb.1)).flatten := by
    intro l
    induction l with
    | nil =>
      intro _ r0
      simp
    | cons sb rest ih =>
      intro hall r0
      rw [List.foldl_cons]
      simp only [hall sb (List.mem_cons_self _ _), if_true]
      rw [ih (fun q hq => hall q (List.mem_cons_of_mem _ hq))
        (r0 ++ segSearch automaton sb.1)]
      simp [List.append_assoc]
  have h0 : searchSegs segs (some automaton)
      = segs.foldl
          (fun res sb => if sb.2 then res ++ segSearch automaton sb.1 else res)
          [] := rfl
  rw [h0, key segs h []]
  simp

/-- Filesystem-level state of a `TermDict` for the claims about
`merge_dicts` failure: the open segment contents, the in-memory and
on-disk Catalog (lists of segment UUIDs, abstracted as `Nat`), and the
UUID stems of the `.dict` files present in the directory. -/
structure FsDict where
  stored : List Seg
  catalogMem : List Nat
  catalogDisk : List Nat
  files : List Nat
deriving DecidableEq

/-- `TermDict::merge_dicts` at filesystem level.  `newId` is the
freshly drawn UUID; `buildFails` says whether the fallible fst build
inside `StoredDict::merge` fails (all the fallible builder/stream steps
lie past the `OpenOptions::create` that creates the output file).
Returns the state after the call and `true` for `Ok` / `false` for
`Err`: mutations made before a `?`-propagated error persist in `self`,
and `std::mem::take(&mut self.stored)` empties the stored list *before*
the fallible merge; no cleanup of the partial output happens on the
error path. -/
def FsDict.merge_dicts (d : FsDict) (newId : Nat) (buildFails : Bool) :
    FsDict × Bool :=
  if d.stored.length ≤ 1 then (d, true)
  else
    let taken : FsDict := { d with stored := [] }
    let created : FsDict := { taken with files := taken.files ++ [newId] }
    if buildFails then (created, false)
    else
      ({ created with
          stored := [mergeSegments d.stored]
          catalogMem := [newId]
          catalogDisk := [newId] }, true)

/-- A file-name stem as classified by `TermDict::gc`: a canonical UUID
string (abstracted by its UUID), a valid-UTF-8 string that does not
parse as a UUID, or a non-UTF-8 stem. -/
inductive Stem where
  | uuid (u : Nat)
  | notUuid
  | badUtf8
deriving DecidableEq

def stemUuid : Stem → Option Nat
  | .uuid u => some u
  | .notUuid => none
  | .badUtf8 => none

/-- A directory entry as seen by `gc`: its stem and extension (Rust's
`file_stem`/`extension` decomposition; `extension().unwrap_or_default()`
gives `""` when there is no extension). -/
structure DirFile where
  stem : Stem
  ext : String
deriving DecidableEq

/-- A `.dict` file survives `gc` iff its stem's UUID is listed in the
Catalog; non-`.dict` files are never touched. -/
def keepFile (catalog : List Nat) (f : DirFile) : Bool :=
  !(f.ext == "dict") ||
    (match stemUuid f.stem with
     | some u => catalog.contains u
     | none => false)

/-- The GC pass run at the end of every `TermDict::commit`: collect the
files with extension `dict`, `expect`-parse each stem as a UUID
(panicking — modelled as `none` — on a non-UTF-8 or non-UUID stem), and
unlink those whose UUID is not in the Catalog.  The result is the list
of directory entries that remain. -/
def gcRun (catalog : List Nat) : List DirFile → Option (List DirFile)
  | [] => some []
  | f :: rest =>
    if f.ext == "dict" then
      match stemUuid f.stem with
      | none => none
      | some u =>
        match gcRun catalog rest with
        | none => none
        | some keep =>
          if catalog.contains u then some (f :: keep) else some keep
    else
      match gcRun catalog rest with
      | none => none
      | some keep => some (f :: keep)

theorem combineFreq_none_right (o : Option Nat) : combineFreq o none = o := by
  cases o <;> rfl

theorem count_filter_of_pos {p : Term → Bool} {t : Term} (h : p t = true) :
    ∀ ts : List Term, (ts.filter p).count t = ts.count t := by
  intro ts
  induction ts with
  | nil => rfl
  | cons u rest ih =>
    by_cases hu : p u = true
    · rw [List.filter_cons_of_pos hu]
      simp [List.count_cons, ih]
    · have hu' : p u = false := by
        cases hh : p u with
        | true => exact absurd hh hu
        | false => rfl
      rw [List.filter_cons_of_neg (by simp [hu'])]
      have hne : ¬(t = u) := by
        intro hh
        rw [hh, hu'] at h
        exact Bool.noConfusion h
      simp [List.count_cons, hne, ih]

/-- The Unicode `Alphabetic` table restricted to the ASCII range
(exactly the letters `A`–`Z` and `a`–`z`), used for concrete instances
whose terms are ASCII. -/
def asciiAlpha (c : Nat) : Bool :=
  (0x41 ≤ c && c ≤ 0x5a) || (0x61 ≤ c && c ≤ 0x7a)

/-- `"foo"`. -/
def fooTerm : Term := [102, 111, 111]

/-- `"bar"`. -/
def barTerm : Term := [98, 97, 114]

/-- `"a"` (rejected by the length filter). -/
def aTerm : Term := [97]

/-- `"ab"`. -/
def abTerm : Term := [97, 98]

/-- **C1.**  For every sequence of `insert(t_i)` calls on a freshly
opened empty `TermDict` followed by a single `commit()`, and for
every term `t` admitted by the ingest filter at least once, `freq(t)`
returns `some k` where `k` is the exact number of filter-admitted
insertions of `t`; for every term never admitted, `freq(t)` returns
`none`. -/
theorem claim_c1 (tab : Nat → Bool) (ts : List Term) (t : Term) :
    (ingestOk tab t = true → t ∈ ts →
      ((insertAll tab TermDict.new ts).commit).freq t = some (ts.count t)) ∧
    (¬(ingestOk tab t = true ∧ t ∈ ts) →
      ((insertAll tab TermDict.new ts).commit).freq t = none) := by
  have hb : ((insertAll tab TermDict.new ts).commit).freq t
      = segGet ((ts.filter (ingestOk tab)).foldl bumpTerm []) t := by
    unfold TermDict.commit TermDict.freq
    show aggFreq ((insertAll tab TermDict.new ts).stored
        ++ [(insertAll tab TermDict.new ts).builder]) t = _
    rw [insertAll_stored, insertAll_builder]
    show aggFreq ([] ++ [(ts.filter (ingestOk tab)).foldl bumpTerm []]) t = _
    rw [List.nil_append, aggFreq_cons, aggFreq_nil, combineFreq_none_right]
  rw [segGet_foldl_bumpTerm List.Pairwise.nil] at hb
  constructor
  · intro hadm hmem
    rw [hb, if_pos (Or.inl (List.mem_filter.mpr ⟨hmem, hadm⟩))]
    rw [count_filter_of_pos hadm]
    simp [segGet]
  · intro hne
    rw [hb, if_neg]
    rintro (hmf | hsome)
    · exact hne ⟨(List.mem_filter.mp hmf).2, (List.mem_filter.mp hmf).1⟩
    · simp [segGet] at hsome

theorem claim_c1_witness :
    ((insertAll asciiAlpha TermDict.new [fooTerm, barTerm, fooTerm]).commit).freq
        fooTerm = some ([fooTerm, barTerm, fooTerm].count fooTerm) ∧
    ((insertAll asciiAlpha TermDict.new [fooTerm, barTerm, fooTerm]).commit).freq
        aTerm = none :=
  ⟨(claim_c1 asciiAlpha [fooTerm, barTerm, fooTerm] fooTerm).1 (by decide) (by decide),
   (claim_c1 asciiAlpha [fooTerm, barTerm, fooTerm] aTerm).2 (by decide)⟩

/-- **C2.**  For every `TermDict` with two or more stored segments,
`merge_dicts()` produces a single resulting segment whose keys are the
sorted union of the input segments' keys and whose value for each key
is the sum of that key's values across all inputs that contained it
(`aggFreq` is exactly that sum, `none` when no input contains the key);
consequently the aggregate `freq(t)` for every term `t` equals its
value before the merge.  (The cursor type is spec-modelled, see
`MergePointer`.) -/
theorem claim_c2 (d : TermDict) (h2 : 2 ≤ d.stored.length)
    (hs : ∀ s ∈ d.stored, SortedKeys s) :
    d.merge_dicts.stored = [mergeSegments d.stored] ∧
    SortedKeys (mergeSegments d.stored) ∧
    (∀ t, ((∃ e ∈ mergeSegments d.stored, e.1 = t)
        ↔ ∃ s ∈ d.stored, ∃ e ∈ s, e.1 = t)) ∧
    (∀ t, segGet (mergeSegments d.stored) t = aggFreq d.stored t) ∧
    (∀ t, d.merge_dicts.freq t = d.freq t) := by
  have hn : ¬(d.stored.length ≤ 1) := by omega
  obtain ⟨hsorted, hget⟩ := mergeSegments_spec d.stored hs
  have hmd : d.merge_dicts = { d with stored := [mergeSegments d.stored] } := by
    unfold TermDict.merge_dicts
    rw [if_neg hn]
  refine ⟨by rw [hmd], hsorted, ?_, hget, ?_⟩
  · intro t
    constructor
    · rintro ⟨e, he, rfl⟩
      have h1 : segGet (mergeSegments d.stored) e.1 = some e.2 :=
        segGet_of_mem hsorted he
      rw [hget e.1] at h1
      have hnall : ¬ ∀ s ∈ d.stored, segGet s e.1 = none := by
        intro hall
        rw [(aggFreq_eq_none_iff _ _).mpr hall] at h1
        exact Option.noConfusion h1
      push_neg at hnall
      obtain ⟨s, hsm, hsg⟩ := hnall
      cases hv : segGet s e.1 with
      | none => exact absurd hv hsg
      | some v => exact ⟨s, hsm, (e.1, v), mem_of_segGet hv, rfl⟩
    · rintro ⟨s, hsm, e, he, rfl⟩
      have h1 : segGet s e.1 = some e.2 := segGet_of_mem (hs s hsm) he
      have h2' : aggFreq d.stored e.1 ≠ none := by
        intro hall
        rw [aggFreq_eq_none_iff] at hall
        rw [hall s hsm] at h1
        exact Option.noConfusion h1
      cases hv : aggFreq d.stored e.1 with
      | none => exact absurd hv h2'
      | some v =>
        have h3 : segGet (mergeSegments d.stored) e.1 = some v := by
          rw [hget e.1, hv]
        exact ⟨(e.1, v), mem_of_segGet h3, rfl⟩
  · intro t
    rw [hmd]
    unfold TermDict.freq
    show aggFreq [mergeSegments d.stored] t = aggFreq d.stored t
    rw [aggFreq_cons, aggFreq_nil, combineFreq_none_right, hget t]

/-- A dictionary with two committed segments, for the C2 witness. -/
def dictTwo : TermDict :=
  ⟨[], [[([97], 1)], [([97], 2), ([98], 3)]]⟩

theorem claim_c2_witness :
    dictTwo.merge_dicts.stored = [mergeSegments dictTwo.stored] ∧
    SortedKeys (mergeSegments dictTwo.stored) ∧
    (∀ t, ((∃ e ∈ mergeSegments dictTwo.stored, e.1 = t)
        ↔ ∃ s ∈ dictTwo.stored, ∃ e ∈ s, e.1 = t)) ∧
    (∀ t, segGet (mergeSegments dictTwo.stored) t = aggFreq dictTwo.stored t) ∧
    (∀ t, dictTwo.merge_dicts.freq t = dictTwo.freq t) :=
  claim_c2 dictTwo (by decide) (by decide)

/-- The failing input for C3: one stored segment `{a ↦ 1, b ↦ 2, c ↦ 3}`. -/
def pruneCexSeg : Seg := [([97], 1), ([98], 2), ([99], 3)]

/-- **C3** (code bug, evaluation at the failing input).  The claim says
`prune(N)` feeds the counts into a *min*-heap capped at `N` and uses its
minimum — the `N`-th largest count — as the threshold, so `prune(2)` on
counts `1, 2, 3` would use threshold `2` and keep both `([98], 2)` and
`([99], 3)`.  But Rust's `BinaryHeap<u64>` is a *max*-heap: `peek_mut`
yields the greatest element (despite being bound to a variable named
`min`), so the pass replaces the maximum, the final heap is `{1, 3}`,
and `into_sorted_vec().pop()` (bound to `lowest`) removes the *last* —
largest — element `3`.  Only `([99], 3)` survives; `([98], 2)` is
dropped. -/
theorem claim_c3_eval :
    pruneModel [pruneCexSeg] 2 = some [[([99], 3)]] ∧
    ([98], 2) ∉ [[([99], 3)]].flatten := by
  refine ⟨rfl, by decide⟩

/-- **C9.**  `prune(0)` panics on every dictionary: the skip check
`heap.len() < 0` never fires, the heap stays empty (pushes need
`len < 0` and `peek_mut` on an empty heap yields `None`), and
`into_sorted_vec().pop().unwrap()` unwraps `None`.  The call never
returns (`none` models the panic). -/
theorem claim_c9 (d : TermDict) : TermDict.prune d 0 = none := by
  unfold TermDict.prune pruneModel
  rw [foldl_heapStep_zero]
  rfl

/-- The pre-merge filesystem state for the C4 counterexample: two
stored segments, Catalog `[1, 2]` in memory and on disk, files
`1.dict`, `2.dict`. -/
def fsCex : FsDict :=
  { stored := [[([97], 1)], [([98], 1)]]
    catalogMem := [1, 2]
    catalogDisk := [1, 2]
    files := [1, 2] }

/-- **C4** (counterexample).  The claim says a failed `merge_dicts`
leaves the in-memory segment list unreplaced and deletes the partial
output.  At this concrete state a failing merge returns `Err`, yet the
stored list has been emptied by `std::mem::take(&mut self.stored)`
(it was nonempty before), and the partial output file (UUID 3) is still
present in the directory — no cleanup happens on the error path. -/
theorem claim_c4_cex :
    (fsCex.merge_dicts 3 true).2 = false ∧
    (fsCex.merge_dicts 3 true).1.stored = [] ∧
    fsCex.stored ≠ [] ∧
    (fsCex.merge_dicts 3 true).1.files = [1, 2, 3] := by
  refine ⟨rfl, rfl, by decide, rfl⟩

/-- **C4** (amended).  If `merge_dicts()` fails before the Catalog is
persisted, the Catalog (in memory and on disk) is unchanged, but the
in-memory segment list is left empty (it was taken by `std::mem::take`
before the fallible merge) and the partial output file is not deleted. -/
theorem claim_c4_amended (d : FsDict) (newId : Nat) (h2 : 2 ≤ d.stored.length) :
    (d.merge_dicts newId true).2 = false ∧
    (d.merge_dicts newId true).1.catalogMem = d.catalogMem ∧
    (d.merge_dicts newId true).1.catalogDisk = d.catalogDisk ∧
    (d.merge_dicts newId true).1.stored = [] ∧
    (d.merge_dicts newId true).1.files = d.files ++ [newId] := by
  have hn : ¬(d.stored.length ≤ 1) := by omega
  unfold FsDict.merge_dicts
  rw [if_neg hn]
  exact ⟨rfl, rfl, rfl, rfl, rfl⟩

theorem claim_c4_amended_witness :
    (fsCex.merge_dicts 3 true).2 = false ∧
    (fsCex.merge_dicts 3 true).1.catalogMem = fsCex.catalogMem ∧
    (fsCex.merge_dicts 3 true).1.catalogDisk = fsCex.catalogDisk ∧
    (fsCex.merge_dicts 3 true).1.stored = [] ∧
    (fsCex.merge_dicts 3 true).1.files = fsCex.files ++ [3] :=
  claim_c4_amended fsCex 3 (by decide)

/-- **C5.**  `insert` admits a term into the accumulator only if it
passes all filter predicates: no term containing an ASCII space, of
(byte) length `≤ 1`, of length `> 100`, with ASCII-punctuation fraction
`> 0.5`, or with non-alphabetic fraction `> 0.25` (the code's fractions,
whose denominator is the UTF-8 byte length) is ever admitted, and the
insert leaves the dictionary — hence every later `freq` result —
unchanged. -/
theorem claim_c5 (tab : Nat → Bool) (d : TermDict) (t : Term)
    (hbad : t.any (fun c => c == 0x20) = true ∨ termLen t ≤ 1 ∨
      100 < termLen t ∨ termLen t < 2 * t.countP isAsciiPunct ∨
      termLen t < 4 * t.countP (fun c => !tab c)) :
    ingestOk tab t = false ∧ TermDict.insert tab d t = d := by
  have hadm : ingestOk tab t = false := by
    unfold ingestOk
    split_ifs with h1 h2 h3 h4 h5
    · rfl
    · rfl
    · rfl
    · rfl
    · rfl
    · exfalso
      rcases hbad with h | h | h | h | h
      · exact h3 h
      · exact h1 h
      · exact h2 h
      · exact h4 h
      · exact h5 h
  refine ⟨hadm, ?_⟩
  unfold TermDict.insert
  rw [hadm]
  simp

/-- `"!!!a"`: ASCII-punctuation fraction 3/4 > 0.5. -/
def bangTerm : Term := [33, 33, 33, 97]

theorem claim_c5_witness :
    ingestOk asciiAlpha bangTerm = false ∧
    TermDict.insert asciiAlpha TermDict.new bangTerm = TermDict.new :=
  claim_c5 asciiAlpha TermDict.new bangTerm (by decide)

/-- **C6.**  After `self.merge(other)` (the spec's merge-in), for every
term `t`, `self.freq(t)` equals the sum of the pre-merge-in
`self.freq(t)` and `other.freq(t)`, treating `none` as absent (the
result is `none` exactly when both were `none`); no key coalescing is
performed, so `self`'s segment count grows by `other`'s segment
count. -/
theorem claim_c6 (d other : TermDict) (t : Term) :
    ((d.merge other).freq t =
      match d.freq t, other.freq t with
      | none, o => o
      | some a, none => some a
      | some a, some b => some (a + b)) ∧
    (((d.merge other).freq t = none) ↔ (d.freq t = none ∧ other.freq t = none)) ∧
    (d.merge other).stored.length = d.stored.length + other.stored.length := by
  have h1 : (d.merge other).freq t = combineFreq (d.freq t) (other.freq t) := by
    unfold TermDict.merge TermDict.freq
    exact aggFreq_append _ _ t
  refine ⟨?_, ?_, ?_⟩
  · rw [h1]
    cases d.freq t <;> cases other.freq t <;> rfl
  · rw [h1]
    exact combineFreq_eq_none
  · simp [TermDict.merge]

/-- **C7.**  `freq(t)` depends only on committed state: `insert(t)`
(admitted or not) leaves every `freq` result unchanged until a
`commit()` occurs, and after `insert(t); commit()` the committed
contribution (the accumulator count of `t`, bumped by the insert) is
reflected in `freq(t)`. -/
theorem claim_c7 (tab : Nat → Bool) (d : TermDict) (t : Term) :
    (∀ u, (TermDict.insert tab d t).freq u = d.freq u) ∧
    (SortedKeys d.builder → ingestOk tab t = true →
      ((TermDict.insert tab d t).commit).freq t
        = combineFreq (d.freq t) (some ((segGet d.builder t).getD 0 + 1))) := by
  constructor
  · intro u
    unfold TermDict.insert TermDict.freq
    split <;> rfl
  · intro hsorted hadm
    unfold TermDict.insert
    rw [if_pos hadm]
    unfold TermDict.commit TermDict.freq
    show aggFreq (d.stored ++ [bumpTerm d.builder t]) t = _
    rw [aggFreq_append, aggFreq_cons, aggFreq_nil, combineFreq_none_right,
      segGet_bumpTerm_self hsorted]

theorem claim_c7_witness :
    ((TermDict.insert asciiAlpha TermDict.new fooTerm).commit).freq fooTerm
      = combineFreq (TermDict.new.freq fooTerm)
          (some ((segGet TermDict.new.builder fooTerm).getD 0 + 1)) :=
  (claim_c7 asciiAlpha TermDict.new fooTerm).2 (by decide) (by decide)

/-- **C8** (counterexample).  The claim says every error arising during
`search` bubbles to the caller.  With one stored segment containing the
key `ab`: a failed Levenshtein construction (`lev = none`) makes
`search` return the plain value `[]` — the model, like the code's
`Vec<String>` return type, has no error channel, and the `if let Ok`
skips silently; a failed segment stream under a succeeding automaton is
likewise swallowed; on full success the key is found, showing the first
two results lose data rather than report the error. -/
theorem claim_c8_cex :
    searchSegs [([(abTerm, 1)], true)] none = [] ∧
    searchSegs [([(abTerm, 1)], false)] (some fun _ => true) = [] ∧
    searchSegs [([(abTerm, 1)], true)] (some fun _ => true) = [abTerm] :=
  ⟨rfl, rfl, rfl⟩

/-- **C8** (amended).  Errors in `search` are silently swallowed, not
propagated: when the automaton construction fails the result is `[]`,
and a segment whose stream fails is skipped; when the construction
succeeds and every segment streams successfully, `search` returns the
union (concatenation) over all segments of the keys accepted by the
automaton. -/
theorem claim_c8_amended (segs : List (Seg × Bool)) (automaton : Term → Bool) :
    searchSegs segs none = [] ∧
    ((∀ sb ∈ segs, sb.2 = true) →
      searchSegs segs (some automaton)
        = (segs.map (fun sb => segSearch automaton sb.1)).flatten) :=
  ⟨searchSegs_none segs, searchSegs_ok segs automaton⟩

theorem claim_c8_amended_witness :
    searchSegs [([(abTerm, 1)], true)] (some fun _ => true)
      = ([([(abTerm, 1)], true)].map
          (fun sb => segSearch (fun _ => true) sb.1)).flatten :=
  (claim_c8_amended [([(abTerm, 1)], true)] (fun _ => true)).2 (by decide)

/-- **C10.**  If the directory contains any `.dict` file whose stem is
not valid UTF-8 or does not parse as a UUID, the GC pass run at the end
of every `commit()` panics via `expect` (modelled by `none`) instead of
returning an error; under the precondition that every `.dict` stem is a
canonical UUID string the panic branches are unreachable and `gc`
removes exactly the `.dict` files whose stems are absent from the
Catalog. -/
theorem claim_c10 (catalog : List Nat) (files : List DirFile) :
    ((∃ f ∈ files, f.ext = "dict" ∧ stemUuid f.stem = none) →
      gcRun catalog files = none) ∧
    ((∀ f ∈ files, f.ext = "dict" → (stemUuid f.stem).isSome) →
      gcRun catalog files = some (files.filter (keepFile catalog))) := by
  induction files with
  | nil =>
    refine ⟨?_, fun _ => rfl⟩
    rintro ⟨f, hf, _⟩
    cases hf
  | cons f rest ih =>
    obtain ⟨ih1, ih2⟩ := ih
    constructor
    · rintro ⟨g, hg, hext, hstem⟩
      rcases List.mem_cons.mp hg with hh | hh
      · subst hh
        unfold gcRun
        rw [if_pos (by simp [hext]), hstem]
      · have hnone := ih1 ⟨g, hh, hext, hstem⟩
        unfold gcRun
        by_cases hfe : (f.ext == "dict") = true
        · rw [if_pos hfe, hnone]
          cases stemUuid f.stem <;> rfl
        · rw [if_neg hfe, hnone]
    · intro hall
      have hrest := ih2 fun g hg hext => hall g (List.mem_cons_of_mem _ hg) hext
      unfold gcRun
      by_cases hfe : (f.ext == "dict") = true
      · have hext : f.ext = "dict" := by simpa using hfe
        cases hsu : stemUuid f.stem with
        | none =>
          exfalso
          have := hall f (List.mem_cons_self _ _) hext
          rw [hsu] at this
          simp at this
        | some u =>
          rw [if_pos hfe]
          simp only [hrest]
          by_cases hc : catalog.contains u = true
          · rw [if_pos hc, List.filter_cons_of_pos
              (by simp [keepFile, hfe, hsu]; exact List.elem_iff.mp hc)]
          · rw [if_neg hc, List.filter_cons_of_neg
              (by simp [keepFile, hfe, hsu]
                  exact fun hmem => hc (List.elem_iff.mpr hmem))]
      · rw [if_neg hfe, hrest,
          List.filter_cons_of_pos (by simp [keepFile, hfe])]

theorem claim_c10_witness :
    gcRun [5] [⟨Stem.badUtf8, "dict"⟩] = none ∧
    gcRun [5] [⟨Stem.uuid 5, "dict"⟩, ⟨Stem.uuid 7, "dict"⟩,
        ⟨Stem.notUuid, "json"⟩]
      = some [⟨Stem.uuid 5, "dict"⟩, ⟨Stem.notUuid, "json"⟩] :=
  ⟨(claim_c10 [5] [⟨Stem.badUtf8, "dict"⟩]).1 (by decide),
   by
    rw [(claim_c10 [5] [⟨Stem.uuid 5, "dict"⟩, ⟨Stem.uuid 7, "dict"⟩,
      ⟨Stem.notUuid, "json"⟩]).2 (by decide)]
    rfl⟩
